import Mathlib

/-!
A shallow embedding of the feasibility/shortage engine of `src/app.py`
(Shotcraft inventory), together with proofs about it.

Modelling conventions:
* Spreadsheet cell contents are modelled by `Cell`: a numeric cell carries a
  rational number, a cell whose text does not parse as a number is `text`,
  and an empty/missing cell is `empty`.  Python floats are modelled by `ℚ`.
* `pd.to_numeric(col, errors="coerce").fillna(0.0)` (app.py lines 164-165)
  is `coerce`: a numeric cell keeps its value, everything else becomes `0`.
* A pandas left merge on `Component` (app.py line 162) produces, for each
  left row, one output row per matching right row, and a single row with a
  missing (`NaN`, here `Cell.empty`) `On_Hand` when no right row matches.
  This is `mergeRows`.
* `df.sort_values("Component")` is modelled by an insertion sort on the
  component name; every property proved below is invariant under which
  sorting algorithm is used, via permutation lemmas.
* A stock table that lacks the `On_Hand` column (app.py line 163 fills the
  column with `0.0`) is modelled by `StockTable.hasOnHand = false`.
-/

/-- A spreadsheet cell as seen by the numeric-coercion step: a number,
non-numeric text, or an empty/missing value. -/
inductive Cell where
  | num (q : ℚ)
  | text (s : String)
  | empty
deriving DecidableEq, Repr

/-- `pd.to_numeric(·, errors="coerce").fillna(0.0)` on a single cell
(app.py lines 164-165): numbers survive, anything that fails numeric
coercion becomes `0`. -/
def coerce : Cell → ℚ
  | Cell.num q => q
  | Cell.text _ => 0
  | Cell.empty => 0

/-- A row of the usage (`FORMULA`) table as consumed by `compute`:
`Component`, `Per_Case`, `UOM`. -/
structure UsageRow where
  component : String
  perCase : Cell
  uom : String
deriving DecidableEq, Repr

/-- A row of the stock (`INVENTORY`) table: `Component`, `On_Hand`. -/
structure StockRow where
  component : String
  onHand : Cell
deriving DecidableEq, Repr

/-- The stock table passed to `compute`.  `hasOnHand = false` models a
dataframe that has a `Component` column but no `On_Hand` column, the case
handled by `if "On_Hand" not in df.columns: df["On_Hand"] = 0.0`
(app.py line 163). -/
structure StockTable where
  hasOnHand : Bool
  rows : List StockRow
deriving DecidableEq, Repr

/-- A derived `FeasibilityRow` of the output tables:
`Component, UOM, On_Hand, Per_Case, Required, Remaining`. -/
structure Row where
  component : String
  uom : String
  onHand : ℚ
  perCase : ℚ
  required : ℚ
  remaining : ℚ
deriving DecidableEq, Repr

/-- `comps.merge(onhand, on="Component", how="left")` (app.py line 162):
for each usage row, one output row per stock row with the same component
name; a usage row with no match keeps a missing `On_Hand` cell.  When the
stock table has no `On_Hand` column the merged frame has none either and
line 163 fills it with `0.0`, modelled by the `Cell.empty` cell. -/
def mergeOne (stock : StockTable) (u : UsageRow) : List (UsageRow × Cell) :=
  let ms := stock.rows.filter fun s => s.component == u.component
  match ms with
  | [] => [(u, Cell.empty)]
  | _ => ms.map fun s => (u, if stock.hasOnHand then s.onHand else Cell.empty)

/-- The whole merged frame: one block of rows per usage row, in order. -/
def mergeRows (comps : List UsageRow) (stock : StockTable) :
    List (UsageRow × Cell) :=
  comps.flatMap (mergeOne stock)

/-- One derived row (app.py lines 164-167): coerce `Per_Case` and `On_Hand`,
then `Required = Per_Case * cases` and `Remaining = On_Hand - Required`. -/
def derive (cases : ℚ) (p : UsageRow × Cell) : Row :=
  let pc := coerce p.1.perCase
  let oh := coerce p.2
  ⟨p.1.component, p.1.uom, oh, pc, pc * cases, oh - pc * cases⟩

/-- Minimum of a list of rationals (`Series.min()` on a NaN-free series);
only ever used on non-empty lists, `0` on `[]` is an arbitrary value. -/
def minQ : List ℚ → ℚ
  | [] => 0
  | [x] => x
  | x :: y :: t => min x (minQ (y :: t))

/-- The three results of `compute`: `display`, `max_sell`, `shortages`. -/
structure ComputeResult where
  display : List Row
  maxSell : ℤ
  shortages : List Row
deriving DecidableEq, Repr

/-- The feasibility engine `compute(comps, onhand, cases)`
(app.py lines 161-174). -/
def compute (comps : List UsageRow) (stock : StockTable) (cases : ℚ) :
    ComputeResult :=
  let df := (mergeRows comps stock).map (derive cases)
  let candidates := df.filter fun r => decide (0 < r.perCase)
  let maxSell : ℤ :=
    if candidates.isEmpty then 0
    else ⌊minQ (candidates.map fun r => r.onHand / r.perCase)⌋
  let shortages := df.filter fun r => decide (r.remaining < 0)
  let display := List.insertionSort (fun a b : Row => a.component ≤ b.component) df
  ⟨display, maxSell, shortages⟩

/-- A row of the raw `FORMULA` worksheet used by `load_data`. -/
structure FormulaRow where
  component : String
  perCase : Cell
  uom : String
deriving DecidableEq, Repr

/-- The raw `FORMULA` dataframe: which of the relevant columns are present,
and the row data (a missing column makes the corresponding field of each row
irrelevant). -/
structure FormulaTable where
  hasComponent : Bool
  hasPerCase : Bool
  hasUOM : Bool
  rows : List FormulaRow
deriving DecidableEq, Repr

/-- The raw `INVENTORY` dataframe. -/
structure InvTable where
  hasComponent : Bool
  hasOnHand : Bool
  rows : List StockRow
deriving DecidableEq, Repr

/-- `load_data` (app.py lines 128-151), spreadsheet I/O abstracted away:
it validates that `FORMULA` has the `Component` and `Per_Case` headers
(raising `ValueError` otherwise, modelled by `Except.error`), selects
`Component`/`Per_Case`/`UOM` (an absent `UOM` column becomes `""`), and
selects `Component`/`On_Hand` from `INVENTORY` when both are present,
otherwise synthesizes a stock table with `On_Hand = 0.0` for every usage
component. -/
def load_data (formula : FormulaTable) (inv : InvTable) :
    Except String (List UsageRow × StockTable) :=
  if formula.hasComponent ∧ formula.hasPerCase then
    let comps : List UsageRow := formula.rows.map fun r =>
      ⟨r.component, r.perCase, if formula.hasUOM then r.uom else ""⟩
    let onhand : StockTable :=
      if inv.hasComponent ∧ inv.hasOnHand then ⟨true, inv.rows⟩
      else ⟨true, comps.map fun c => ⟨c.component, Cell.num 0⟩⟩
    Except.ok (comps, onhand)
  else
    Except.error "FORMULA must have headers: Component, Per_Case"

/-- A cell of the worksheet as written back by `write_onhand`. -/
inductive SheetCell where
  | str (s : String)
  | num (q : ℚ)
deriving DecidableEq, Repr

/-- A row of the edited stock table handed to `write_onhand`. -/
structure EditedRow where
  component : String
  onHand : Cell
deriving DecidableEq, Repr

/-- `write_onhand(sh, edited_df)` (app.py lines 153-159): select
`Component`/`On_Hand`, coerce `On_Hand` to numeric with failures filled by
`0`, then `ws.clear()` followed by `ws.update(values)` — the worksheet
becomes exactly the new header row plus data rows, whatever its prior
content was. -/
def write_onhand (prior : List (List SheetCell)) (edited : List EditedRow) :
    List (List SheetCell) :=
  let values :=
    [SheetCell.str "Component", SheetCell.str "On_Hand"] ::
      edited.map fun r => [SheetCell.str r.component, SheetCell.num (coerce r.onHand)]
  -- `ws.clear()` discards `prior`; `ws.update(values)` writes `values`.
  values

/-! ### Helper lemmas -/

lemma compute_display (comps : List UsageRow) (stock : StockTable) (cases : ℚ) :
    (compute comps stock cases).display =
      List.insertionSort (fun a b : Row => a.component ≤ b.component)
        ((mergeRows comps stock).map (derive cases)) := rfl

lemma compute_shortages (comps : List UsageRow) (stock : StockTable) (cases : ℚ) :
    (compute comps stock cases).shortages =
      ((mergeRows comps stock).map (derive cases)).filter
        (fun r => decide (r.remaining < 0)) := rfl

lemma compute_maxSell (comps : List UsageRow) (stock : StockTable) (cases : ℚ) :
    (compute comps stock cases).maxSell =
      (if (((mergeRows comps stock).map (derive cases)).filter
            (fun r => decide (0 < r.perCase))).isEmpty then 0
       else ⌊minQ ((((mergeRows comps stock).map (derive cases)).filter
            (fun r => decide (0 < r.perCase))).map
              (fun r => r.onHand / r.perCase))⌋) := rfl

lemma display_perm (comps : List UsageRow) (stock : StockTable) (cases : ℚ) :
    List.Perm ((compute comps stock cases).display)
      ((mergeRows comps stock).map (derive cases)) :=
  List.perm_insertionSort _ _

lemma minQ_mem : ∀ (l : List ℚ), l ≠ [] → minQ l ∈ l
  | [], h => absurd rfl h
  | [x], _ => by simp [minQ]
  | x :: y :: t, _ => by
      rw [show minQ (x :: y :: t) = min x (minQ (y :: t)) from rfl]
      rcases min_cases x (minQ (y :: t)) with ⟨h, _⟩ | ⟨h, _⟩
      · rw [h]; exact List.mem_cons_self _ _
      · rw [h]; exact List.mem_cons_of_mem _ (minQ_mem (y :: t) (by simp))

lemma minQ_le : ∀ (l : List ℚ) (x : ℚ), x ∈ l → minQ l ≤ x
  | [], _, h => absurd h (List.not_mem_nil _)
  | [y], x, h => by
      rcases List.mem_singleton.mp h with rfl
      simp [minQ]
  | y :: z :: t, x, h => by
      rw [show minQ (y :: z :: t) = min y (minQ (z :: t)) from rfl]
      rcases List.mem_cons.mp h with rfl | hx
      · exact min_le_left _ _
      · exact le_trans (min_le_right _ _) (minQ_le (z :: t) x hx)

lemma minQ_perm {l l' : List ℚ} (h : List.Perm l l') : minQ l = minQ l' := by
  rcases eq_or_ne l [] with rfl | hl
  · rw [h.symm.eq_nil]
  · have hl' : l' ≠ [] := by
      intro he
      rw [he] at h
      exact hl h.eq_nil
    exact le_antisymm
      (minQ_le l _ (h.mem_iff.mpr (minQ_mem l' hl')))
      (minQ_le l' _ (h.mem_iff.mp (minQ_mem l hl)))

lemma minQ_mono : ∀ {l l' : List ℚ}, List.Forall₂ (· ≤ ·) l l' → minQ l ≤ minQ l'
  | [], [], _ => le_refl 0
  | [_], [_], h => by
      rcases h with _ | ⟨hab, _⟩
      simpa [minQ] using hab
  | _ :: _ :: _, _ :: _ :: _, h => by
      rcases h with _ | ⟨hab, ht⟩
      exact min_le_min hab (minQ_mono ht)
  | [_], _ :: _ :: _, h => by
      rcases h with _ | ⟨_, ht⟩
      exact absurd ht.length_eq (by simp)
  | _ :: _ :: _, [_], h => by
      rcases h with _ | ⟨_, ht⟩
      exact absurd ht.length_eq (by simp)

lemma forall2_refl_of {α : Type} {R : α → α → Prop} (hR : ∀ a, R a a) :
    ∀ (l : List α), List.Forall₂ R l l
  | [] => List.Forall₂.nil
  | _ :: t => List.Forall₂.cons (hR _) (forall2_refl_of hR t)

lemma forall2_filter_congr {α : Type} {R : α → α → Prop} {p : α → Bool}
    (hp : ∀ a b, R a b → p a = p b) :
    ∀ {l l' : List α}, List.Forall₂ R l l' →
      List.Forall₂ R (l.filter p) (l'.filter p)
  | [], [], _ => List.Forall₂.nil
  | a :: _, b :: _, List.Forall₂.cons hab h => by
      rcases hpa : p a with _ | _
      · have hpb : p b = false := (hp a b hab).symm.trans hpa
        simpa [List.filter_cons, hpa, hpb] using forall2_filter_congr hp h
      · have hpb : p b = true := (hp a b hab).symm.trans hpa
        simpa [List.filter_cons, hpa, hpb] using
          List.Forall₂.cons hab (forall2_filter_congr hp h)

lemma forall2_map_of {α β : Type} {R : α → α → Prop} {S : β → β → Prop}
    {f g : α → β} (h : ∀ a b, R a b → S (f a) (g b)) :
    ∀ {l l' : List α}, List.Forall₂ R l l' →
      List.Forall₂ S (l.map f) (l'.map g)
  | [], [], _ => List.Forall₂.nil
  | _ :: _, _ :: _, List.Forall₂.cons hab ht =>
      List.Forall₂.cons (h _ _ hab) (forall2_map_of h ht)

lemma forall2_append_of {α : Type} {S : α → α → Prop}
    {l₁ l₂ u₁ u₂ : List α} (h : List.Forall₂ S l₁ l₂)
    (h' : List.Forall₂ S u₁ u₂) :
    List.Forall₂ S (l₁ ++ u₁) (l₂ ++ u₂) := by
  induction h with
  | nil => exact h'
  | cons hab _ ih => exact List.Forall₂.cons hab ih

lemma forall2_flatMap_of {α β : Type} {S : β → β → Prop}
    {f g : α → List β} (h : ∀ a, List.Forall₂ S (f a) (g a)) :
    ∀ (l : List α), List.Forall₂ S (l.flatMap f) (l.flatMap g)
  | [] => List.Forall₂.nil
  | a :: t => by
      simp only [List.flatMap_cons]
      exact forall2_append_of (h a) (forall2_flatMap_of h t)

lemma mergeRows_nil (stock : StockTable) : mergeRows [] stock = [] := rfl

lemma mergeRows_cons (u : UsageRow) (t : List UsageRow) (stock : StockTable) :
    mergeRows (u :: t) stock = mergeOne stock u ++ mergeRows t stock :=
  List.flatMap_cons ..

lemma mergeOne_of_no_match {stock : StockTable} {u : UsageRow}
    (h : stock.rows.filter (fun s => s.component == u.component) = []) :
    mergeOne stock u = [(u, Cell.empty)] := by
  simp only [mergeOne, h]

lemma mergeOne_of_match {stock : StockTable} {u : UsageRow} {s0 : StockRow}
    {t0 : List StockRow}
    (h : stock.rows.filter (fun s => s.component == u.component) = s0 :: t0) :
    mergeOne stock u = (s0 :: t0).map
      (fun s => (u, if stock.hasOnHand then s.onHand else Cell.empty)) := by
  simp only [mergeOne, h]

lemma mem_mergeOne {stock : StockTable} {u : UsageRow} {p : UsageRow × Cell}
    (hp : p ∈ mergeOne stock u) :
    p.2 = Cell.empty ∨ (stock.hasOnHand = true ∧ ∃ s ∈ stock.rows, p.2 = s.onHand) := by
  rcases hms : stock.rows.filter (fun s => s.component == u.component) with _ | ⟨s0, t0⟩
  · rw [mergeOne_of_no_match hms] at hp
    simp only [List.mem_singleton] at hp
    subst hp
    exact Or.inl rfl
  · rw [mergeOne_of_match hms] at hp
    simp only [List.mem_map] at hp
    rcases hp with ⟨s, hs, rfl⟩
    rcases hb : stock.hasOnHand with _ | _
    · simp [hb]
    · refine Or.inr ⟨rfl, s, ?_, by simp [hb]⟩
      have hsf : s ∈ stock.rows.filter (fun s => s.component == u.component) := by
        rw [hms]
        exact hs
      exact List.mem_of_mem_filter hsf

/-- Where each merged `On_Hand` cell comes from: either the fill-in for a
component with no stock match (or a stock table without the column), or the
`On_Hand` cell of some stock row. -/
lemma mergeRows_snd {comps : List UsageRow} {stock : StockTable}
    {p : UsageRow × Cell} (hp : p ∈ mergeRows comps stock) :
    p.2 = Cell.empty ∨ ∃ s ∈ stock.rows, p.2 = s.onHand := by
  rw [mergeRows, List.mem_flatMap] at hp
  rcases hp with ⟨u, _, hp⟩
  rcases mem_mergeOne hp with h | ⟨_, h⟩
  · exact Or.inl h
  · exact Or.inr h

/-- When the stock table has no `On_Hand` column, every merged cell is the
missing-value cell. -/
lemma mergeRows_snd_of_not_hasOnHand {comps : List UsageRow} {rows : List StockRow}
    {p : UsageRow × Cell} (hp : p ∈ mergeRows comps ⟨false, rows⟩) :
    p.2 = Cell.empty := by
  rw [mergeRows, List.mem_flatMap] at hp
  rcases hp with ⟨u, _, hp⟩
  rcases mem_mergeOne hp with h | ⟨hb, _⟩
  · exact h
  · exact absurd hb (by simp)

/-- With at most one matching stock row, each usage row contributes exactly
one merged row. -/
lemma mergeRows_length {stock : StockTable} :
    ∀ {comps : List UsageRow},
      (∀ u ∈ comps,
        (stock.rows.filter fun s => s.component == u.component).length ≤ 1) →
      (mergeRows comps stock).length = comps.length
  | [], _ => rfl
  | u :: t, h => by
      rw [mergeRows_cons, List.length_append]
      have ht : (mergeRows t stock).length = t.length :=
        mergeRows_length fun v hv => h v (List.mem_cons_of_mem _ hv)
      rw [ht]
      rcases hms : stock.rows.filter (fun s => s.component == u.component) with _ | ⟨s0, t0⟩
      · rw [mergeOne_of_no_match hms]
        simp [Nat.add_comm]
      · have h1 := h u (List.mem_cons_self _ _)
        rw [hms] at h1
        have ht0 : t0 = [] := by
          rcases t0 with _ | _
          · rfl
          · simp at h1
        subst ht0
        rw [mergeOne_of_match hms]
        simp [Nat.add_comm]

/-- Raising (in coerced value) the `On_Hand` cells of a stock table, keeping
the component names, raises the merged cells for each usage row pointwise. -/
lemma mergeOne_mono {s1 s2 : StockTable} (hHas : s1.hasOnHand = s2.hasOnHand)
    (h : List.Forall₂
      (fun a b : StockRow => a.component = b.component ∧ coerce a.onHand ≤ coerce b.onHand)
      s1.rows s2.rows) (u : UsageRow) :
    List.Forall₂ (fun p q : UsageRow × Cell => p.1 = q.1 ∧ coerce p.2 ≤ coerce q.2)
      (mergeOne s1 u) (mergeOne s2 u) := by
  have hfil := forall2_filter_congr
      (p := fun s => s.component == u.component)
      (fun a b hab => by simp only [hab.1]) h
  rcases hms1 : s1.rows.filter (fun s => s.component == u.component) with _ | ⟨a, t1⟩
  · rw [hms1] at hfil
    rcases hms2 : s2.rows.filter (fun s => s.component == u.component) with _ | ⟨b, t2⟩
    · rw [mergeOne_of_no_match hms1, mergeOne_of_no_match hms2]
      exact List.Forall₂.cons ⟨rfl, le_refl _⟩ List.Forall₂.nil
    · rw [hms2] at hfil
      exact absurd hfil.length_eq (by simp)
  · rw [hms1] at hfil
    rcases hms2 : s2.rows.filter (fun s => s.component == u.component) with _ | ⟨b, t2⟩
    · rw [hms2] at hfil
      exact absurd hfil.length_eq (by simp)
    · rw [hms2] at hfil
      rw [mergeOne_of_match hms1, mergeOne_of_match hms2]
      refine forall2_map_of ?_ hfil
      intro a' b' hab'
      refine ⟨rfl, ?_⟩
      rw [hHas]
      rcases s2.hasOnHand with _ | _
      · exact le_refl _
      · simpa using hab'.2

/-- The derived frames of two stock tables related as in `mergeOne_mono` have
equal `Per_Case` and pointwise increasing `On_Hand`. -/
lemma df_mono (comps : List UsageRow) (cases : ℚ) {s1 s2 : StockTable}
    (hHas : s1.hasOnHand = s2.hasOnHand)
    (h : List.Forall₂
      (fun a b : StockRow => a.component = b.component ∧ coerce a.onHand ≤ coerce b.onHand)
      s1.rows s2.rows) :
    List.Forall₂ (fun r r' : Row => r.perCase = r'.perCase ∧ r.onHand ≤ r'.onHand)
      ((mergeRows comps s1).map (derive cases))
      ((mergeRows comps s2).map (derive cases)) := by
  refine forall2_map_of ?_ (forall2_flatMap_of (mergeOne_mono hHas h) comps)
  intro p q hpq
  refine ⟨?_, ?_⟩
  · show coerce p.1.perCase = coerce q.1.perCase
    rw [hpq.1]
  · exact hpq.2

lemma ratio_mono :
    ∀ {l l' : List Row},
      List.Forall₂ (fun r r' : Row => r.perCase = r'.perCase ∧ r.onHand ≤ r'.onHand) l l' →
      (∀ r ∈ l, 0 < r.perCase) →
      List.Forall₂ (· ≤ ·)
        (l.map fun r => r.onHand / r.perCase) (l'.map fun r => r.onHand / r.perCase)
  | [], [], _, _ => List.Forall₂.nil
  | a :: _, b :: _, List.Forall₂.cons hab ht, hpos => by
      refine List.Forall₂.cons ?_
        (ratio_mono ht fun r hr => hpos r (List.mem_cons_of_mem _ hr))
      have hpa : 0 < a.perCase := hpos a (List.mem_cons_self _ _)
      show a.onHand / a.perCase ≤ b.onHand / b.perCase
      rw [← hab.1]
      exact (div_le_div_iff_of_pos_right hpa).mpr hab.2

/-- Core of the monotonicity claim: pointwise increasing `On_Hand` with fixed
components never decreases `max_sell`. -/
lemma maxSell_mono_of_forall2 (comps : List UsageRow) (cases : ℚ)
    {s1 s2 : StockTable} (hHas : s1.hasOnHand = s2.hasOnHand)
    (h : List.Forall₂
      (fun a b : StockRow => a.component = b.component ∧ coerce a.onHand ≤ coerce b.onHand)
      s1.rows s2.rows) :
    (compute comps s1 cases).maxSell ≤ (compute comps s2 cases).maxSell := by
  rw [compute_maxSell, compute_maxSell]
  have hdf := df_mono comps cases hHas h
  have hcand := forall2_filter_congr
      (p := fun r : Row => decide (0 < r.perCase))
      (fun a b hab => by simp only [hab.1]) hdf
  rcases hc1 : ((mergeRows comps s1).map (derive cases)).filter
      (fun r => decide (0 < r.perCase)) with _ | ⟨a, t1⟩
  · rw [hc1] at hcand
    rcases hc2 : ((mergeRows comps s2).map (derive cases)).filter
        (fun r => decide (0 < r.perCase)) with _ | ⟨b, t2⟩
    · rw [hc1, hc2]
    · rw [hc2] at hcand
      exact absurd hcand.length_eq (by simp)
  · rw [hc1] at hcand
    rcases hc2 : ((mergeRows comps s2).map (derive cases)).filter
        (fun r => decide (0 < r.perCase)) with _ | ⟨b, t2⟩
    · rw [hc2] at hcand
      exact absurd hcand.length_eq (by simp)
    · rw [hc2] at hcand
      rw [hc1, hc2]
      simp only [List.isEmpty_cons, Bool.false_eq_true, if_false]
      apply Int.floor_le_floor
      apply minQ_mono
      apply ratio_mono hcand
      intro r hr
      have hrf : r ∈ ((mergeRows comps s1).map (derive cases)).filter
          (fun r => decide (0 < r.perCase)) := by
        rw [hc1]
        exact hr
      exact of_decide_eq_true (List.mem_filter.mp hrf).2

lemma filter_map_stock (f : StockRow → StockRow)
    (hf : ∀ s, (f s).component = s.component) (name : String) :
    ∀ (rows : List StockRow),
      (rows.map f).filter (fun s => s.component == name)
        = (rows.filter fun s => s.component == name).map f
  | [] => rfl
  | a :: t => by
      rcases ha : (a.component == name) with _ | _
      · have ha' : ((f a).component == name) = false := by rw [hf a]; exact ha
        simp only [List.map_cons, List.filter_cons, ha, ha', if_false,
          Bool.false_eq_true]
        exact filter_map_stock f hf name t
      · have ha' : ((f a).component == name) = true := by rw [hf a]; exact ha
        simp only [List.map_cons, List.filter_cons, ha, ha', if_true]
        rw [filter_map_stock f hf name t]

/-- Derived frames agree whenever the usage rows are changed without touching
component, UOM or coerced `Per_Case`, and the stock rows are changed without
touching component or the coerced effective `On_Hand` cell. -/
lemma df_congr (cases : ℚ) (nU : UsageRow → UsageRow)
    (hU1 : ∀ u, (nU u).component = u.component)
    (hU2 : ∀ u, (nU u).uom = u.uom)
    (hU3 : ∀ u, coerce (nU u).perCase = coerce u.perCase)
    (s1 s2 : StockTable) (f : StockRow → StockRow)
    (hrows : s2.rows = s1.rows.map f)
    (hf : ∀ s, (f s).component = s.component)
    (hcell : ∀ s : StockRow,
      coerce (if s2.hasOnHand then (f s).onHand else Cell.empty)
        = coerce (if s1.hasOnHand then s.onHand else Cell.empty)) :
    ∀ (comps : List UsageRow),
      ((mergeRows (comps.map nU) s2).map (derive cases))
        = (mergeRows comps s1).map (derive cases)
  | [] => rfl
  | u :: t => by
      rw [List.map_cons, mergeRows_cons, mergeRows_cons, List.map_append,
        List.map_append, df_congr cases nU hU1 hU2 hU3 s1 s2 f hrows hf hcell t]
      have hfil : s2.rows.filter (fun s => s.component == (nU u).component)
          = (s1.rows.filter fun s => s.component == u.component).map f := by
        rw [hrows, hU1, filter_map_stock f hf]
      rcases hms : s1.rows.filter (fun s => s.component == u.component) with _ | ⟨s0, t0⟩
      · rw [hms] at hfil
        rw [mergeOne_of_no_match hfil, mergeOne_of_no_match hms]
        simp only [List.map_singleton]
        rw [show derive cases ((nU u), Cell.empty) = derive cases (u, Cell.empty) by
          simp only [derive, hU1, hU2, hU3]]
      · rw [hms] at hfil
        rw [List.map_cons] at hfil
        rw [mergeOne_of_match hfil, mergeOne_of_match hms]
        rw [← List.map_cons f s0 t0, List.map_map, List.map_map, List.map_map]
        refine congrArg (fun l' => l' ++ List.map (derive cases) (mergeRows t s1)) ?_
        refine congrArg (fun g => List.map g (s0 :: t0)) ?_
        funext s
        simp only [Function.comp_apply]
        simp only [derive, hU1, hU2, hU3, hcell]

lemma perm_isEmpty {α : Type} {l l' : List α} (h : List.Perm l l') :
    l.isEmpty = l'.isEmpty := by
  rcases l with _ | ⟨a, t⟩
  · rw [h.symm.eq_nil]
  · rcases l' with _ | ⟨b, t'⟩
    · exact absurd h.length_eq (by simp)
    · rfl

/-! ### Claims -/

/-- C1: for every usage table and stock table (after coercion), `compute`
returns `maxSellableCases` equal to the floor of the minimum of
`On_Hand / Per_Case` taken over exactly the derived rows whose
`Per_Case > 0`; if no row has `Per_Case > 0`, the result is `0`. -/
theorem C1_maxSell_floor_min (comps : List UsageRow) (stock : StockTable)
    (cases : ℚ) :
    (compute comps stock cases).maxSell =
      if ((compute comps stock cases).display.filter
            (fun r => decide (0 < r.perCase))).isEmpty then 0
      else ⌊minQ (((compute comps stock cases).display.filter
            (fun r => decide (0 < r.perCase))).map
              (fun r => r.onHand / r.perCase))⌋ := by
  rw [compute_maxSell]
  have hp := (display_perm comps stock cases).filter
    (fun r => decide (0 < r.perCase))
  rw [perm_isEmpty hp, minQ_perm (hp.map (fun r => r.onHand / r.perCase))]

/-- C4: `shortageRows` consists of exactly the derived rows whose `Remaining`
is strictly negative (zero remaining is not a shortage), and is a subset of
`displayRows`. -/
theorem C4_shortages_iff (comps : List UsageRow) (stock : StockTable)
    (cases : ℚ) (r : Row) :
    r ∈ (compute comps stock cases).shortages ↔
      r ∈ (compute comps stock cases).display ∧ r.remaining < 0 := by
  simp only [compute_shortages, List.mem_filter, decide_eq_true_eq,
    (display_perm comps stock cases).mem_iff]

/-- C6: every output row of `compute` satisfies
`Required = Per_Case * cases` and `Remaining = On_Hand - Required`, for every
(also negative) `cases`. -/
theorem C6_required_remaining (comps : List UsageRow) (stock : StockTable)
    (cases : ℚ) (r : Row) (hr : r ∈ (compute comps stock cases).display) :
    r.required = r.perCase * cases ∧ r.remaining = r.onHand - r.required := by
  have hdf := (display_perm comps stock cases).mem_iff.mp hr
  rcases List.mem_map.mp hdf with ⟨p, _, rfl⟩
  exact ⟨rfl, rfl⟩

theorem C6_required_remaining_witness :
    ((⟨"A", "ea", 10, 2, 6, 4⟩ : Row) ∈
        (compute [⟨"A", Cell.num 2, "ea"⟩] ⟨true, [⟨"A", Cell.num 10⟩]⟩ 3).display) ∧
      ((⟨"A", "ea", 10, 2, 6, 4⟩ : Row).required
          = (⟨"A", "ea", 10, 2, 6, 4⟩ : Row).perCase * 3 ∧
        (⟨"A", "ea", 10, 2, 6, 4⟩ : Row).remaining
          = (⟨"A", "ea", 10, 2, 6, 4⟩ : Row).onHand
              - (⟨"A", "ea", 10, 2, 6, 4⟩ : Row).required) :=
  ⟨by simp [compute, mergeRows, mergeOne, derive, coerce,
      List.insertionSort, List.orderedInsert]; norm_num,
    C6_required_remaining [⟨"A", Cell.num 2, "ea"⟩] ⟨true, [⟨"A", Cell.num 10⟩]⟩ 3
      ⟨"A", "ea", 10, 2, 6, 4⟩
      (by simp [compute, mergeRows, mergeOne, derive, coerce,
        List.insertionSort, List.orderedInsert]; norm_num)⟩

/-- C9: the write-back persists exactly a `Component`/`On_Hand` header plus
one row per edited entry with the coerced numeric `On_Hand`, as a full
replacement independent of the worksheet's prior content. -/
theorem C9_write_onhand_replaces (prior prior' : List (List SheetCell))
    (edited : List EditedRow) :
    write_onhand prior edited
        = [SheetCell.str "Component", SheetCell.str "On_Hand"] ::
            edited.map
              (fun r => [SheetCell.str r.component, SheetCell.num (coerce r.onHand)])
      ∧ write_onhand prior edited = write_onhand prior' edited :=
  ⟨rfl, rfl⟩

/-- C2 fails as stated: with usage table `[A]` (whose only component does
appear in the stock table) and a stock table listing component `A` twice,
the left merge emits one row per matching stock row, so `displayRows` has 2
rows, not `len(usage) = 1`. -/
theorem C2_counterexample :
    (compute [⟨"A", Cell.num 1, ""⟩]
        ⟨true, [⟨"A", Cell.num 5⟩, ⟨"A", Cell.num 7⟩]⟩ 0).display.length ≠ 1 := by
  simp [compute, mergeRows, mergeOne, derive, coerce,
    List.insertionSort, List.orderedInsert]

/-- C2 (amended): `displayRows` has exactly one row per usage entry whenever
each usage component matches at most one stock row (in particular whenever
stock component names are unique); a duplicated stock component instead
yields one row per matching stock row. -/
theorem C2_display_length (comps : List UsageRow) (stock : StockTable)
    (cases : ℚ)
    (h : ∀ u ∈ comps,
      (stock.rows.filter fun s => s.component == u.component).length ≤ 1) :
    (compute comps stock cases).display.length = comps.length := by
  rw [(display_perm comps stock cases).length_eq, List.length_map,
    mergeRows_length h]

theorem C2_display_length_witness :
    (compute [⟨"Bottle", Cell.num 12, "ea"⟩, ⟨"Cap", Cell.num 12, "ea"⟩]
        ⟨true, [⟨"Bottle", Cell.num 100⟩, ⟨"Cap", Cell.num 50⟩]⟩ 0).display.length
      = ([⟨"Bottle", Cell.num 12, "ea"⟩, ⟨"Cap", Cell.num 12, "ea"⟩] :
          List UsageRow).length :=
  C2_display_length
    [⟨"Bottle", Cell.num 12, "ea"⟩, ⟨"Cap", Cell.num 12, "ea"⟩]
    ⟨true, [⟨"Bottle", Cell.num 100⟩, ⟨"Cap", Cell.num 50⟩]⟩ 0
    (by decide)

/-- C3 fails as stated: a stock table with a negative `On_Hand` (a data
anomaly the data model allows) drives the minimum ratio, and hence the floor,
below zero; `compute` applies no clamping. -/
theorem C3_counterexample :
    (compute [⟨"A", Cell.num 1, ""⟩] ⟨true, [⟨"A", Cell.num (-5)⟩]⟩ 0).maxSell
      < 0 := by
  simp [compute, mergeRows, mergeOne, derive, coerce, minQ,
    List.insertionSort, List.orderedInsert]
  norm_num

lemma df_onHand_source (comps : List UsageRow) (stock : StockTable) (cases : ℚ)
    {r : Row} (hr : r ∈ (mergeRows comps stock).map (derive cases)) :
    r.onHand = 0 ∨ ∃ s ∈ stock.rows, r.onHand = coerce s.onHand := by
  rcases List.mem_map.mp hr with ⟨p, hp, rfl⟩
  rcases mergeRows_snd hp with h | ⟨s, hs, h⟩
  · left
    show coerce p.2 = 0
    rw [h]
    rfl
  · right
    refine ⟨s, hs, ?_⟩
    show coerce p.2 = coerce s.onHand
    rw [h]

/-- C3 (amended): whenever every stock `On_Hand` cell coerces to a
non-negative value, `maxSellableCases` is non-negative (it is an integer by
construction). -/
theorem C3_maxSell_nonneg (comps : List UsageRow) (stock : StockTable)
    (cases : ℚ) (h : ∀ s ∈ stock.rows, 0 ≤ coerce s.onHand) :
    0 ≤ (compute comps stock cases).maxSell := by
  rw [compute_maxSell]
  rcases hc : ((mergeRows comps stock).map (derive cases)).filter
      (fun r => decide (0 < r.perCase)) with _ | ⟨a, t⟩
  · rw [hc]
    simp
  · rw [hc]
    simp only [List.isEmpty_cons, Bool.false_eq_true, if_false]
    refine Int.le_floor.mpr ?_
    rw [Int.cast_zero]
    have hmem := minQ_mem (((a :: t).map fun r => r.onHand / r.perCase)) (by simp)
    rcases List.mem_map.mp hmem with ⟨r, hrmem, heq⟩
    rw [← heq]
    have hrfil : r ∈ ((mergeRows comps stock).map (derive cases)).filter
        (fun r => decide (0 < r.perCase)) := by
      rw [hc]
      exact hrmem
    have hrdf := List.mem_filter.mp hrfil
    have hpc : 0 < r.perCase := of_decide_eq_true hrdf.2
    have hoh : 0 ≤ r.onHand := by
      rcases df_onHand_source comps stock cases hrdf.1 with h0 | ⟨s, hs, h0⟩
      · rw [h0]
      · rw [h0]
        exact h s hs
    exact div_nonneg hoh (le_of_lt hpc)

theorem C3_maxSell_nonneg_witness :
    0 ≤ (compute [⟨"A", Cell.num 2, ""⟩] ⟨true, [⟨"A", Cell.num 5⟩]⟩ 0).maxSell :=
  C3_maxSell_nonneg [⟨"A", Cell.num 2, ""⟩] ⟨true, [⟨"A", Cell.num 5⟩]⟩ 0
    (by
      intro s hs
      rcases List.mem_singleton.mp hs with rfl
      norm_num [coerce])

/-- C5: numeric coercion is a silent repair — non-numeric text and
empty/missing cells coerce to `0` before any arithmetic, and replacing every
`Per_Case`/`On_Hand` cell by its coerced numeric value leaves the (total)
computation unchanged. -/
theorem C5_coercion_silent_repair :
    (∀ s, coerce (Cell.text s) = 0) ∧ coerce Cell.empty = 0
      ∧ ∀ (comps : List UsageRow) (stock : StockTable) (cases : ℚ),
          compute
            (comps.map fun u => ⟨u.component, Cell.num (coerce u.perCase), u.uom⟩)
            ⟨stock.hasOnHand,
              stock.rows.map fun s => ⟨s.component, Cell.num (coerce s.onHand)⟩⟩
            cases
          = compute comps stock cases := by
  refine ⟨fun _ => rfl, rfl, ?_⟩
  intro comps stock cases
  obtain ⟨b, rows⟩ := stock
  have hdf := df_congr cases
    (fun u => ⟨u.component, Cell.num (coerce u.perCase), u.uom⟩)
    (fun _ => rfl) (fun _ => rfl) (fun _ => rfl)
    ⟨b, rows⟩ ⟨b, rows.map fun s => ⟨s.component, Cell.num (coerce s.onHand)⟩⟩
    (fun s => ⟨s.component, Cell.num (coerce s.onHand)⟩) rfl (fun _ => rfl)
    (fun s => by rcases b with _ | _ <;> rfl) comps
  simp only [compute]
  rw [hdf]

/-- C7: increasing a single `On_Hand` cell (in coerced value), all other
inputs fixed, never decreases `maxSellableCases`. -/
theorem C7_monotone (comps : List UsageRow) (hasOH : Bool)
    (pre post : List StockRow) (name : String) (c c' : Cell) (cases : ℚ)
    (h : coerce c ≤ coerce c') :
    (compute comps ⟨hasOH, pre ++ ⟨name, c⟩ :: post⟩ cases).maxSell
      ≤ (compute comps ⟨hasOH, pre ++ ⟨name, c'⟩ :: post⟩ cases).maxSell := by
  refine maxSell_mono_of_forall2 comps cases ?_ ?_
  · rfl
  · exact forall2_append_of
      (forall2_refl_of (fun a => ⟨rfl, le_refl _⟩) pre)
      (List.Forall₂.cons ⟨rfl, h⟩
        (forall2_refl_of (fun a => ⟨rfl, le_refl _⟩) post))

theorem C7_monotone_witness :
    (compute [⟨"A", Cell.num 2, "ea"⟩]
        ⟨true, [] ++ ⟨"A", Cell.num 5⟩ :: []⟩ 0).maxSell
      ≤ (compute [⟨"A", Cell.num 2, "ea"⟩]
          ⟨true, [] ++ ⟨"A", Cell.num 8⟩ :: []⟩ 0).maxSell :=
  C7_monotone [⟨"A", Cell.num 2, "ea"⟩] true [] [] "A"
    (Cell.num 5) (Cell.num 8) 0 (by norm_num [coerce])

/-- C8: a usage table lacking the `Component` or the `Per_Case` column makes
loading fail with a configuration error, and no (partial) result is ever
returned to the caller. -/
theorem C8_missing_columns_error (formula : FormulaTable) (inv : InvTable)
    (h : formula.hasComponent = false ∨ formula.hasPerCase = false) :
    (∃ msg, load_data formula inv = Except.error msg)
      ∧ ∀ out, load_data formula inv ≠ Except.ok out := by
  have hcond : ¬ (formula.hasComponent = true ∧ formula.hasPerCase = true) := by
    rcases h with h | h <;> simp [h]
  refine ⟨⟨"FORMULA must have headers: Component, Per_Case", ?_⟩, ?_⟩
  · rw [load_data, if_neg hcond]
  · intro out hout
    rw [load_data, if_neg hcond] at hout
    exact Except.noConfusion hout

theorem C8_missing_columns_error_witness :
    (∃ msg, load_data ⟨true, false, false, []⟩ ⟨true, true, []⟩
        = Except.error msg)
      ∧ ∀ out, load_data ⟨true, false, false, []⟩ ⟨true, true, []⟩
          ≠ Except.ok out :=
  C8_missing_columns_error ⟨true, false, false, []⟩ ⟨true, true, []⟩
    (Or.inr rfl)

/-- C10: a stock table with a `Component` column but no `On_Hand` column does
not make `compute` fail — it behaves exactly as if every component had
`On_Hand = 0.0`, and every output row carries `On_Hand = 0`. -/
theorem C10_missing_onhand_column (comps : List UsageRow)
    (rows : List StockRow) (cases : ℚ) :
    compute comps ⟨false, rows⟩ cases
        = compute comps ⟨true, rows.map fun s => ⟨s.component, Cell.num 0⟩⟩ cases
      ∧ ((compute comps ⟨false, rows⟩ cases).display.all
          fun r => decide (r.onHand = 0)) = true := by
  constructor
  · have hdf := df_congr cases id (fun _ => rfl) (fun _ => rfl) (fun _ => rfl)
      ⟨false, rows⟩ ⟨true, rows.map fun s => ⟨s.component, Cell.num 0⟩⟩
      (fun s => ⟨s.component, Cell.num 0⟩) rfl (fun _ => rfl)
      (fun s => rfl) comps
    rw [List.map_id] at hdf
    simp only [compute]
    rw [hdf]
  · rw [List.all_eq_true]
    intro r hr
    have hrdf := (display_perm comps ⟨false, rows⟩ cases).mem_iff.mp hr
    rcases List.mem_map.mp hrdf with ⟨p, hp, rfl⟩
    have hcell := mergeRows_snd_of_not_hasOnHand hp
    show decide ((derive cases p).onHand = 0) = true
    rw [decide_eq_true_eq]
    show coerce p.2 = 0
    rw [hcell]
    rfl
